import Mathlib

set_option exponentiation.threshold 2000
set_option maxRecDepth 10000

/-!
# Verification of the toy RSA worked example (`src/content/posts/2023/rsa.py`)

Shallow embedding of the script's computations.  The script is a straight-line
Python program: fixed primes, a linear search for the public exponent `e`, a
brute-force modular-inverse search for the private exponent `d`, character-wise
modular-exponentiation encryption/decryption of the literal string "hello:)",
trial-division factorization of the modulus, and a re-derivation of `d`.

Python's unbounded integers are modelled by `Nat` (and `Int` where the source
value can be negative).  Python's `n /= d` in `prime_factors` is *float* true
division, executed only under the guard `n % d == 0`; it is modelled here as
exact `Nat` division.  The two semantics coincide whenever every intermediate
quotient stays within double precision — in particular on every run the script
actually performs (its sole call is `prime_factors(5917)`), and on every
non-positive input (where the loop body never runs) — but for a semiprime with
a prime factor above `2^53` the float division rounds and the script returns
wrong factors.  The spec's design notes call that float division precision
loss and prescribe integer division; the integer-division semantics embedded
here is therefore the documented intent, and the script's divergence from it
on large semiprimes is a defect of the script, not of this model.
-/

namespace RsaPost

/-- `p = 61` (line 3). -/
def p : Nat := 61

/-- `q = 97` (line 4). -/
def q : Nat := 97

/-- `phi = (p-1)*(q-1)` (line 9). -/
def phi : Nat := (p - 1) * (q - 1)

/-- The loop body of lines 14-20: walk the remaining iterator of
`range(2, ph)`, appending every `i` with `gcd(i, ph) == 1` to the accumulator
`acc` (the list `pe`), and `break` as soon as the accumulator reaches 12
elements.  The returned list is the final value of `pe`. -/
def peLoopAux (ph : Nat) : List Nat → List Nat → List Nat
  | [], acc => acc
  | i :: rest, acc =>
    if Nat.gcd i ph = 1 then
      if (acc ++ [i]).length = 12 then acc ++ [i] else peLoopAux ph rest (acc ++ [i])
    else peLoopAux ph rest acc

/-- The whole `for i in range(2, ph)` loop of lines 14-20, for an arbitrary
totient `ph`: `range(2, ph)` is the `ph - 2`-element ascending list starting
at 2. -/
def peSel (ph : Nat) : List Nat := peLoopAux ph (List.range' 2 (ph - 2)) []

/-- `pe`, the list built by lines 14-20 of the source with the script's `phi`. -/
def pe : List Nat := peSel phi

/-- `pe[-1]`, the public exponent printed as `e` (line 22).  `pe` is nonempty
here, so Python's `pe[-1]` is the last element; the default of `getLastD` is
never used. -/
def eVal : Nat := pe.getLastD 0

/-- The loop body of lines 26-29: scan the remaining iterator of
`range(0, ph)` and return the first `i` with `(i*e) % ph == 1`; if the loop
exhausts, the value of `d` remains its initialisation `0` (line 25). -/
def dSearch (e ph : Nat) : List Nat → Nat
  | [] => 0
  | i :: rest => if (i * e) % ph = 1 then i else dSearch e ph rest

/-- The whole `d` computation of lines 25-29 for arbitrary `e` and `ph`:
`range(0, ph)` is `List.range ph`. -/
def dSel (e ph : Nat) : Nat := dSearch e ph (List.range ph)

/-- `d`, the private exponent of lines 25-29, using the script's
`pe[-1]` and `phi`. -/
def d : Nat := dSel eVal phi

/-- `example_string = "hello:)"` (line 34). -/
def example_string : String := "hello:)"

/-- `[ord(c) for c in s]` (line 37). `Char.toNat` is the Unicode scalar
value, which is exactly Python's `ord`. -/
def toNumeric (s : String) : List Nat := s.toList.map Char.toNat

/-- `example_string_numeric` (line 37). -/
def example_string_numeric : List Nat := toNumeric example_string

/-- The encryption loop of lines 41-43: `c ** e % n` for each code point,
in order. -/
def encryptList (cs : List Nat) (e n : Nat) : List Nat := cs.map (fun c => c ^ e % n)

/-- `encrypted` (lines 41-43): exponent `pe[-1]`, modulus `p*q`. -/
def encrypted : List Nat := encryptList example_string_numeric eVal (p * q)

/-- The decryption loop of lines 50-52: `c ** d % n` for each ciphertext
value, in order. -/
def decryptList (cs : List Nat) (dk n : Nat) : List Nat := cs.map (fun c => c ^ dk % n)

/-- `decrypted` (lines 50-52): exponent `d`, modulus `p*q`. -/
def decrypted : List Nat := decryptList encrypted d (p * q)

/-- `''.join([chr(i) for i in cs])` (line 56). `Char.ofNat` is Python's
`chr` on every value this program produces (all below the surrogate range). -/
def fromNumeric (cs : List Nat) : String := String.mk (cs.map Char.ofNat)

/-- `result` (line 56), the decrypted string. -/
def result : String := fromNumeric decrypted

/-- The two nested `while` loops of `prime_factors` (lines 59-67), with an
explicit fuel argument (the Python loop is not structurally recursive; the
entry point supplies fuel sufficient for every terminating run proved below).
One step either emits the current trial divisor `dv` and divides it out
(`n % dv == 0`, inner loop) or increments `dv` (outer loop); both loops stop
as soon as `n` reaches 1, exactly as in the source.  The source's `n /= d` is
float true division; `n / dv` here is the exact integer division the spec
prescribes in its place (exact under the guard `n % dv == 0`).  The two agree
whenever every quotient stays within double precision — always the case for
the script's sole input 5917 — and part ways above `2^53`, where the script's
float rounds (see the module comment). -/
def pfAuxN : Nat → Nat → Nat → List Nat
  | 0, _, _ => []
  | fuel + 1, n, dv =>
    if n ≤ 1 then []
    else if n % dv = 0 then dv :: pfAuxN fuel (n / dv) dv
    else pfAuxN fuel n (dv + 1)

/-- `prime_factors(n)` (lines 59-67).  Python's argument is an `int`, so the
domain is `Int`; for `n <= 1` the `while n > 1` guard is false at entry and
the loop body never runs (`Int.toNat` sends those inputs to `0` or `1`, on
which `pfAuxN` immediately returns `[]`).  The appended divisors are Python
ints, hence the result is a list of `Int`.  Division semantics: integer
division as in `pfAuxN`, i.e. the spec's intended semantics, which matches
the script's float division exactly on every input whose intermediate
quotients stay within double precision (and vacuously on `n <= 1`). -/
def prime_factors (n : Int) : List Int :=
  (pfAuxN (2 * n.toNat + 2) n.toNat 2).map (fun k => (k : Int))

/-- `factors = prime_factors(p*q)` (line 69). -/
def factors : List Int := prime_factors ((p * q : Nat) : Int)

/-- `new_phi = (factors[0]-1)*(factors[1]-1)` (line 72); `factors` has two
elements here, so the `getD` defaults are never used. -/
def new_phi : Int := (factors.getD 0 0 - 1) * (factors.getD 1 0 - 1)

/-- The re-derivation loop of lines 73-76: scan `range(0, p*q)` and return
the first `i` with `(47 * i) % 5760 == 1` (the source uses these literals);
the loop only prints and breaks, so a run that finds nothing yields `none`. -/
def rederive : List Nat → Option Nat
  | [] => none
  | i :: rest => if (47 * i) % 5760 = 1 then some i else rederive rest

/-- The value printed as `d` by lines 73-76. -/
def rederived_d : Option Nat := rederive (List.range (p * q))

/-! ## Helper lemmas -/

theorem pfAuxN_succ (fuel n dv : Nat) :
    pfAuxN (fuel + 1) n dv =
      if n ≤ 1 then []
      else if n % dv = 0 then dv :: pfAuxN fuel (n / dv) dv
      else pfAuxN fuel n (dv + 1) := rfl

theorem pfAuxN_one (fuel dv : Nat) : pfAuxN fuel 1 dv = [] := by
  cases fuel <;> simp [pfAuxN]

/-- Skipping a block of non-divisors only consumes fuel and advances the
trial divisor. -/
theorem pfAuxN_skip (k : Nat) : ∀ (fuel n dv : Nat), 1 < n →
    (∀ j, dv ≤ j → j < dv + k → ¬ j ∣ n) →
    pfAuxN (fuel + k) n dv = pfAuxN fuel n (dv + k) := by
  induction k with
  | zero => intro fuel n dv _ _; rfl
  | succ k ih =>
    intro fuel n dv hn hnd
    have hdvd : ¬ dv ∣ n := hnd dv le_rfl (by omega)
    have hstep : pfAuxN (fuel + (k + 1)) n dv = pfAuxN (fuel + k) n (dv + 1) := by
      have e : fuel + (k + 1) = (fuel + k) + 1 := by omega
      rw [e, pfAuxN_succ, if_neg (Nat.not_le.mpr hn),
        if_neg (fun h => hdvd (Nat.dvd_of_mod_eq_zero h))]
    rw [hstep, ih fuel n (dv + 1) hn (fun j hj1 hj2 => hnd j (by omega) (by omega))]
    congr 1
    omega

/-- Trial division of a product of two primes `a < b`, with any surplus
fuel: it scans up to `a`, divides it out, scans up to `b`, divides it out,
and stops at quotient 1. -/
theorem pfAuxN_two_primes (a b : Nat) (ha : a.Prime) (hb : b.Prime)
    (hab : a < b) (fuel : Nat) :
    pfAuxN (fuel + b) (a * b) 2 = [a, b] := by
  have h2a := ha.two_le
  have h2b := hb.two_le
  have hn1 : 1 < a * b := by
    calc 1 < 2 * 2 := by omega
    _ ≤ a * b := Nat.mul_le_mul h2a h2b
  have hb1 : 1 < b := by omega
  have hskip1 : ∀ j, 2 ≤ j → j < 2 + (a - 2) → ¬ j ∣ a * b := by
    intro j hj2 hja hdvd
    obtain ⟨r, hr, hrj⟩ := Nat.exists_prime_and_dvd (show j ≠ 1 by omega)
    have hrle : r ≤ j := Nat.le_of_dvd (by omega) hrj
    rcases (Nat.Prime.dvd_mul hr).mp (hrj.trans hdvd) with hra | hrb
    · have := (Nat.prime_dvd_prime_iff_eq hr ha).mp hra
      omega
    · have := (Nat.prime_dvd_prime_iff_eq hr hb).mp hrb
      omega
  have hskip2 : ∀ j, a ≤ j → j < a + (b - a) → ¬ j ∣ b := by
    intro j hja hjb hdvd
    rcases hb.eq_one_or_self_of_dvd j hdvd with h1 | h1 <;> omega
  have e1 : fuel + b = ((((fuel + 1) + (b - a)) + 1) + (a - 2)) := by omega
  rw [e1, pfAuxN_skip (a - 2) (((fuel + 1) + (b - a)) + 1) (a * b) 2 hn1 hskip1]
  have e2 : 2 + (a - 2) = a := by omega
  rw [e2, pfAuxN_succ, if_neg (Nat.not_le.mpr hn1), if_pos (Nat.mul_mod_right a b),
    Nat.mul_div_cancel_left b (show 0 < a by omega)]
  rw [pfAuxN_skip (b - a) (fuel + 1) b a hb1 hskip2]
  have e3 : a + (b - a) = b := by omega
  rw [e3, pfAuxN_succ, if_neg (Nat.not_le.mpr hb1), if_pos (Nat.mod_self b),
    Nat.div_self (show 0 < b by omega), pfAuxN_one]

theorem peLoopAux_nil (ph : Nat) (acc : List Nat) : peLoopAux ph [] acc = acc := rfl

theorem peLoopAux_cons (ph i : Nat) (rest acc : List Nat) :
    peLoopAux ph (i :: rest) acc =
      if Nat.gcd i ph = 1 then
        if (acc ++ [i]).length = 12 then acc ++ [i] else peLoopAux ph rest (acc ++ [i])
      else peLoopAux ph rest acc := rfl

/-- The `pe` loop with fewer than 12 collected elements computes the first
12 coprime values of the remaining range: the `break` is a `take 12`. -/
theorem peLoopAux_eq (ph : Nat) : ∀ (xs acc : List Nat), acc.length < 12 →
    peLoopAux ph xs acc = (acc ++ xs.filter (fun j => Nat.gcd j ph == 1)).take 12 := by
  intro xs
  induction xs with
  | nil =>
    intro acc hacc
    simp [peLoopAux_nil, List.take_of_length_le (Nat.le_of_lt hacc)]
  | cons i rest ih =>
    intro acc hacc
    by_cases hg : Nat.gcd i ph = 1
    · by_cases hlen : (acc ++ [i]).length = 12
      · rw [peLoopAux_cons, if_pos hg, if_pos hlen,
          List.filter_cons_of_pos (by simpa using hg)]
        rw [show acc ++ i :: List.filter (fun j => Nat.gcd j ph == 1) rest
              = (acc ++ [i]) ++ List.filter (fun j => Nat.gcd j ph == 1) rest by simp]
        rw [List.take_append_of_le_length (by omega), List.take_of_length_le (by omega)]
      · have hlt : (acc ++ [i]).length < 12 := by
          simp only [List.length_append, List.length_singleton] at hlen ⊢
          omega
        rw [peLoopAux_cons, if_pos hg, if_neg hlen, ih (acc ++ [i]) hlt,
          List.filter_cons_of_pos (by simpa using hg)]
        simp
    · rw [peLoopAux_cons, if_neg hg, ih acc hacc,
        List.filter_cons_of_neg (by simpa using hg)]

/-! ## Claims -/

/-- C9: for the fixed primes `p = 61` and `q = 97`, the modulus `p*q`
equals 5917 and the totient `phi = (p-1)*(q-1)` equals 5760. -/
theorem modulus_totient_values : p * q = 5917 ∧ phi = 5760 := ⟨rfl, rfl⟩

/-- C2: encrypting the literal string "hello:)" with `e = 47` and
`n = 5917` produces the code points `[104,101,108,108,111,58,41]` and the
ciphertext `[3381,5214,2575,2575,3000,3303,3809]`; the script's `pe[-1]`
and `p*q` are those very values. -/
theorem encrypt_hello :
    example_string_numeric = [104, 101, 108, 108, 111, 58, 41] ∧
    eVal = 47 ∧ p * q = 5917 ∧
    encryptList [104, 101, 108, 108, 111, 58, 41] 47 5917
      = [3381, 5214, 2575, 2575, 3000, 3303, 3809] ∧
    encrypted = [3381, 5214, 2575, 2575, 3000, 3303, 3809] := by
  refine ⟨by decide, by decide, by decide, by decide, by decide⟩

/-- C3: decrypting `[3381,5214,2575,2575,3000,3303,3809]` with `d = 1103`
and `n = 5917` yields `[104,101,108,108,111,58,41]`, and mapping back to
characters reconstructs "hello:)"; the script's `decrypted` and `result`
are exactly these. -/
theorem decrypt_hello :
    decryptList [3381, 5214, 2575, 2575, 3000, 3303, 3809] 1103 5917
      = [104, 101, 108, 108, 111, 58, 41] ∧
    d = 1103 ∧
    decrypted = [104, 101, 108, 108, 111, 58, 41] ∧
    result = "hello:)" := by
  refine ⟨by decide, by decide, by decide, by decide⟩

/-- C4: the public exponent is selected as the 12th coprime integer found
scanning `i = 2, 3, ...` upward: `pe` is exactly the first 12 elements of
the coprime filter of `range(2, phi)`, it is `[7, ..., 47]`, and
`pe[-1] = 47`. -/
theorem e_is_twelfth_coprime :
    pe = ((List.range' 2 (phi - 2)).filter (fun j => Nat.gcd j phi == 1)).take 12 ∧
    pe = [7, 11, 13, 17, 19, 23, 29, 31, 37, 41, 43, 47] ∧
    pe.length = 12 ∧ eVal = 47 := by
  refine ⟨?hq1, by decide, by decide, by decide⟩
  have h := peLoopAux_eq phi (List.range' 2 (phi - 2)) [] (by decide)
  unfold pe peSel
  simpa using h

/-- C5: the private exponent search scans `i = 0, 1, 2, ...` upward and
takes the first `i` with `(i*e) % phi = 1`; for `e = 47`, `phi = 5760` the
result is `d = 1103`, a modular inverse, and no smaller non-negative
integer works. -/
theorem d_smallest_inverse :
    d = 1103 ∧ eVal = 47 ∧ phi = 5760 ∧ (1103 * 47) % 5760 = 1 ∧
    (∀ j, j < 1103 → (j * 47) % 5760 ≠ 1) := by
  refine ⟨by decide, by decide, by decide, by decide, by decide⟩

theorem d_smallest_inverse_witness : (5 * 47) % 5760 ≠ 1 :=
  d_smallest_inverse.2.2.2.2 5 (by decide)

/-- C8 counterexample: for `ph = 4` only one integer in `[2, 4)` is coprime
to `ph` (fewer than 12), yet the selection loop terminates with the result
`[3]`: `range(2, ph)` is a 2-element list, so the scan cannot run
unbounded. -/
theorem e_search_bounded_counterexample :
    ((List.range' 2 (4 - 2)).filter (fun j => Nat.gcd j 4 == 1)).length < 12 ∧
    (List.range' 2 (4 - 2)).length = 2 ∧
    peSel 4 = [3] := by
  refine ⟨by decide, by decide, by decide⟩

/-- C8 amended: when fewer than 12 integers in `[2, ph)` are coprime to
`ph`, the loop terminates after exhausting the finite range `range(2, ph)`
and `pe` holds exactly the coprime integers found, in ascending order
(fewer than 12 of them). -/
theorem e_search_under_twelve (ph : Nat)
    (h : ((List.range' 2 (ph - 2)).filter (fun j => Nat.gcd j ph == 1)).length < 12) :
    peSel ph = (List.range' 2 (ph - 2)).filter (fun j => Nat.gcd j ph == 1) := by
  unfold peSel
  rw [peLoopAux_eq ph _ [] (by decide)]
  simp only [List.nil_append]
  exact List.take_of_length_le (by omega)

theorem e_search_under_twelve_witness :
    ((List.range' 2 (4 - 2)).filter (fun j => Nat.gcd j 4 == 1)).length < 12 ∧
    peSel 4 = (List.range' 2 (4 - 2)).filter (fun j => Nat.gcd j 4 == 1) :=
  ⟨by decide, e_search_under_twelve 4 (by decide)⟩

/-- C7: the re-derivation closes the loop: `prime_factors(p*q)` returns
`[61, 97]`, the totient recomputed from those factors equals `phi`, and the
linear scan of lines 73-76 finds the same private exponent `1103 = d`. -/
theorem rederived_d_matches :
    factors = [(61 : Int), (97 : Int)] ∧ new_phi = (phi : Int) ∧
    rederived_d = some 1103 ∧ rederived_d = some d := by
  refine ⟨by decide, by decide, by decide, by decide⟩

/-- Under the integer-division semantics of `prime_factors` (the semantics
the spec prescribes in place of the script's float `n /= d`), trial division
of a product of two distinct primes returns exactly those two primes in
ascending order; in particular `prime_factors 5917 = [61, 97]`.  The Python
script itself satisfies this only while the primes stay within double
precision: its float division misfactors semiprimes with a prime factor
above `2^53`, so this theorem states the documented intent, not the float
behaviour of the script on such large inputs. -/
theorem prime_factors_semiprime :
    (∀ a b : Nat, a.Prime → b.Prime → a < b →
        prime_factors ((a * b : Nat) : Int) = [(a : Int), (b : Int)]) ∧
    prime_factors 5917 = [(61 : Int), (97 : Int)] := by
  constructor
  · intro a b ha hb hab
    unfold prime_factors
    have ht : ((a * b : Nat) : Int).toNat = a * b := rfl
    rw [ht]
    have h1b : 1 * b ≤ a * b := Nat.mul_le_mul (by have := ha.two_le; omega) le_rfl
    rw [one_mul] at h1b
    have e : 2 * (a * b) + 2 = (2 * (a * b) + 2 - b) + b := by omega
    rw [e, pfAuxN_two_primes a b ha hb hab]
    rfl
  · decide

theorem prime_factors_semiprime_witness :
    prime_factors ((61 * 97 : Nat) : Int) = [(61 : Int), (97 : Int)] :=
  prime_factors_semiprime.1 61 97 (by norm_num) (by norm_num) (by norm_num)

/-- C10: for every integer `n ≤ 1` (zero and negative values included) the
`while n > 1` guard of `prime_factors` is false at entry, so the function
returns `[]` at once; the embedding's loop body is never entered. -/
theorem prime_factors_nonpos (n : Int) (hn : n ≤ 1) : prime_factors n = [] := by
  unfold prime_factors
  have ht : n.toNat ≤ 1 := by omega
  have e : 2 * n.toNat + 2 = (2 * n.toNat + 1) + 1 := by omega
  rw [e, pfAuxN_succ, if_pos ht]
  rfl

theorem prime_factors_nonpos_witness : prime_factors (-7) = [] :=
  prime_factors_nonpos (-7) (by decide)

/-- A single printable-ASCII code point survives encryption followed by
decryption: `47 * 1103 ≡ 1 (mod 5760)` makes modular exponentiation by 47
and then by 1103 the identity on residues below the modulus. -/
theorem rt_char : ∀ c : Nat, c < 127 → 32 ≤ c → (c ^ 47 % 5917) ^ 1103 % 5917 = c := by
  decide

theorem char_ofNat_toNat (c : Char) : Char.ofNat c.toNat = c := by
  apply Char.eq_of_val_eq
  apply UInt32.eq_of_toBitVec_eq
  apply BitVec.eq_of_toNat_eq
  show (Char.ofNat c.toNat).val.toBitVec.toNat = c.toNat
  unfold Char.ofNat
  have hv : c.toNat.isValidChar := c.valid
  rw [dif_pos hv]
  rfl

theorem roundtrip_list (l : List Char)
    (h : ∀ ch ∈ l, 32 ≤ ch.toNat ∧ ch.toNat ≤ 126) :
    ((((l.map Char.toNat).map (fun c => c ^ 47 % 5917)).map
        (fun c => c ^ 1103 % 5917)).map Char.ofNat) = l := by
  induction l with
  | nil => rfl
  | cons c rest ih =>
    simp only [List.map_cons]
    have hc := h c (by simp)
    rw [rt_char c.toNat (by omega) hc.1, char_ofNat_toNat,
      ih (fun x hx => h x (by simp [hx]))]

/-- C1: for every plaintext string over printable ASCII, character-wise
decryption of the character-wise encryption with the derived key triple
`(pe[-1], d, p*q)` returns the original string. -/
theorem rsa_roundtrip (s : String)
    (h : ∀ ch ∈ s.toList, 32 ≤ ch.toNat ∧ ch.toNat ≤ 126) :
    fromNumeric (decryptList (encryptList (toNumeric s) eVal (p * q)) d (p * q)) = s := by
  have he : eVal = 47 := by decide
  have hd : d = 1103 := by decide
  have hn : p * q = 5917 := by decide
  rw [he, hd, hn]
  obtain ⟨cs⟩ := s
  unfold fromNumeric decryptList encryptList toNumeric
  exact congrArg String.mk (roundtrip_list cs h)

theorem rsa_roundtrip_witness :
    fromNumeric (decryptList (encryptList (toNumeric "hello:)") eVal (p * q)) d (p * q))
      = "hello:)" :=
  rsa_roundtrip "hello:)" (by decide)

end RsaPost
